import Mathlib

set_option maxRecDepth 80000

/-!
Verification development for the ReAct agent repository
(`response_parser.py`, `agent.py`, `envs.py`).

The Python sources are shallowly embedded: strings are modelled as
`List Char` (`Str`), Python string methods (`strip`, `split`, `rfind`,
`str.split(sep, 1)`) are translated as executable Lean functions, and the
stateful agent (message tree plus ReAct loop) is modelled by explicit state
passing.  The external language-model backend is modelled as a stream of
responses (one per loop iteration), matching its interface boundary.

Layout: all definitions first, then all theorems.
-/

/-- Python strings are modelled as lists of characters. -/
abbrev Str := List Char

namespace PyStr

/-- The ASCII whitespace characters removed by Python `str.strip()`. -/
def isSpace (c : Char) : Bool :=
  c = ' ' || c = '\t' || c = '\n' || c = '\r' || c = '\x0b' || c = '\x0c'

/-- Python `str.lstrip()`. -/
def lstrip (s : Str) : Str := s.dropWhile isSpace

/-- Python `str.rstrip()`. -/
def rstrip (s : Str) : Str := ((s.reverse).dropWhile isSpace).reverse

/-- Python `str.strip()`: remove leading and trailing whitespace. -/
def strip (s : Str) : Str := rstrip (lstrip s)

/-- `beginsWith p s` holds when `p` is an initial run of `s`
(Python `s.startswith(p)` at an offset, used to test marker occurrences). -/
def beginsWith : Str → Str → Bool
  | [], _ => true
  | _ :: _, [] => false
  | a :: as, b :: bs => a = b && beginsWith as bs

/-- An occurrence of pattern `p` at index `i` of `t`. -/
def occursAt (t p : Str) (i : Nat) : Bool := beginsWith p (t.drop i)

/-- Downward search for the rightmost occurrence of `p` in `t` starting at
index `i` or earlier (helper for Python `str.rfind`). -/
def rfindAux (t p : Str) : Nat → Option Nat
  | 0 => if occursAt t p 0 then some 0 else none
  | i + 1 => if occursAt t p (i + 1) then some (i + 1) else rfindAux t p i

/-- Python `t.rfind(p, 0, endPos)`: the highest index `i` such that `p`
occurs at `i` and the occurrence lies inside `t[0:endPos]`; `none` when
there is no such occurrence (Python returns `-1`). -/
def rfindSub (t p : Str) (endPos : Nat) : Option Nat :=
  if p.length ≤ endPos then rfindAux t p (endPos - p.length) else none

/-- Python `s.split(sep, 1)` specialised to `sep = "\n"`:
the text before the first newline, and (when a newline exists) the rest. -/
def splitFirstNl : Str → Str × Option Str
  | [] => ([], none)
  | c :: cs =>
    if c = '\n' then ([], some cs)
    else
      let r := splitFirstNl cs
      (c :: r.1, r.2)

/-- Prepend a character to the first part of a split result
(helper for `splitOnSub`). -/
def consHead (c : Char) : List Str → List Str
  | [] => [[c]]
  | x :: xs => (c :: x) :: xs

/-- Fuel-indexed worker for `splitOnSub`; the fuel is only a structural
termination device and never runs out when it starts at `s.length`. -/
def splitOnSubGo (p : Str) : Nat → Str → List Str
  | _, [] => [[]]
  | 0, s => [s]
  | fuel + 1, c :: cs =>
    if p ≠ [] ∧ occursAt (c :: cs) p 0 then
      [] :: splitOnSubGo p fuel ((c :: cs).drop p.length)
    else
      consHead c (splitOnSubGo p fuel cs)

/-- Python `s.split(sep)` for a non-empty separator: left-to-right,
non-overlapping; `"".split(sep) = [""]`. -/
def splitOnSub (s p : Str) : List Str := splitOnSubGo p s.length s

/-- Decidable check that pattern `p` occurs nowhere in `t` at an index
`≥ lo` (used to state that an encoded call contains no stray marker). -/
def noOccurFrom (t p : Str) (lo : Nat) : Bool :=
  (List.range (t.length + 1)).all (fun j => decide (j < lo) || !occursAt t p j)

/-- Decidable check that pattern `p` occurs nowhere in `t` at an index
`< hi`. -/
def noOccurBelow (t p : Str) (hi : Nat) : Bool :=
  (List.range hi).all (fun j => !occursAt t p j)

end PyStr

open PyStr

/-! ## Insertion-ordered association lists (Python `dict`) -/

/-- Python `dict` assignment `d[k] = v` on an insertion-ordered association
list: overwrite the value at an existing key in place, otherwise append the
new pair at the end. -/
def dictInsert {κ ν : Type} [DecidableEq κ] (m : List (κ × ν)) (k : κ) (v : ν) :
    List (κ × ν) :=
  match m with
  | [] => [(k, v)]
  | (k', v') :: rest =>
    if k' = k then (k', v) :: rest else (k', v') :: dictInsert rest k v

/-- Python `dict` lookup `d[k]` / `d.get(k)` on an association list. -/
def assocFind {κ ν : Type} [DecidableEq κ] (m : List (κ × ν)) (k : κ) : Option ν :=
  match m with
  | [] => none
  | (k', v') :: rest => if k' = k then some v' else assocFind rest k

/-- Number of entries of an association list carrying key `k`. -/
def countKey {κ ν : Type} [DecidableEq κ] (m : List (κ × ν)) (k : κ) : Nat :=
  (m.filter (fun kv => decide (kv.1 = k))).length

/-! ## `ResponseParser` (`src/response_parser.py`) -/

namespace ResponseParser

/-- Literal marker `----BEGIN_FUNCTION_CALL----`. -/
def BEGIN_CALL : Str := "----BEGIN_FUNCTION_CALL----".toList

/-- Literal marker `----END_FUNCTION_CALL----`. -/
def END_CALL : Str := "----END_FUNCTION_CALL----".toList

/-- Literal marker `----ARG----`. -/
def ARG_SEP : Str := "----ARG----".toList

/-- The structured result of a successful parse:
`{"thought": ..., "name": ..., "arguments": ...}`.
The argument mapping is an insertion-ordered association list, mirroring a
Python `dict`. -/
structure ParsedCall where
  thought : Str
  name : Str
  args : List (Str × Str)
  deriving DecidableEq, Repr

/-- Parse one argument segment (`parts[i]` for `i ≥ 1`): strip it, split at
the first newline into a name line and an optional value, strip both; `none`
when the name is blank (the source raises `ValueError` for that segment). -/
def segParse (seg : Str) : Option (Str × Str) :=
  let s := strip seg
  let r := splitFirstNl s
  let argName := strip r.1
  if argName = [] then none
  else
    match r.2 with
    | some rest => some (argName, strip rest)
    | none => some (argName, [])

/-- The loop `for i in range(1, len(parts))` accumulating `arguments`;
`i` is the 1-based index used in the error message. -/
def parseArgsFrom (i : Nat) (acc : List (Str × Str)) :
    List Str → Except String (List (Str × Str))
  | [] => .ok acc
  | seg :: rest =>
    match segParse seg with
    | none =>
      .error ("Argument " ++ toString i ++ " is malformed: missing argument name")
    | some (k, v) => parseArgsFrom (i + 1) (dictInsert acc k v) rest

/-- `ResponseParser.parse` (`src/response_parser.py`, lines 29-78), translated
clause by clause: `rfind` the end marker, `rfind` the begin marker before it,
strip the thought, strip and split the call content on `----ARG----`, take
the first part as the function name, parse the remaining segments as
arguments.  Errors carry the source `ValueError` messages. -/
def parse (text : Str) : Except String ParsedCall :=
  match rfindSub text END_CALL text.length with
  | none => .error "No END_CALL marker found in response"
  | some endIdx =>
    match rfindSub text BEGIN_CALL endIdx with
    | none => .error "No BEGIN_CALL marker found before END_CALL"
    | some beginIdx =>
      let thought := strip (text.take beginIdx)
      let callContent :=
        strip ((text.drop (beginIdx + BEGIN_CALL.length)).take
          (endIdx - (beginIdx + BEGIN_CALL.length)))
      match splitOnSub callContent ARG_SEP with
      | [] => .error "No function name found in function call"
      | fnPart :: argParts =>
        let functionName := strip fnPart
        if functionName = [] then .error "Function name is empty"
        else
          match parseArgsFrom 1 [] argParts with
          | .error e => .error e
          | .ok args =>
            .ok { thought := thought, name := functionName, args := args }

/-- The value assigned to an argument name `x` by the last segment of `segs`
that carries `x` (the source dict assignment makes the last occurrence win). -/
def lastValue (segs : List Str) (x : Str) : Option Str :=
  match segs with
  | [] => none
  | s :: rest =>
    match lastValue rest x with
    | some v => some v
    | none =>
      match segParse s with
      | some (k, v) => if k = x then some v else none
      | none => none

/-- Encode a call in the wire format of `ResponseParser.response_format`:
the function name on its own line after the begin marker, then each argument
as the per-argument marker followed by the argument name line and the value,
then the end marker. -/
def encodeCall (name : Str) (args : List (Str × Str)) : Str :=
  BEGIN_CALL ++ '\n' :: name ++ '\n' ::
    (args.flatMap (fun kv => ARG_SEP ++ '\n' :: kv.1 ++ '\n' :: kv.2 ++ ['\n'])) ++
    END_CALL

end ResponseParser

/-! ## `ReactAgent` (`src/agent.py`) -/

namespace Agent

/-- A message node of the history tree (`ReactAgent.add_message`); the
wall-clock `timestamp` is informational only and modelled as `0`. -/
structure Msg where
  role : String
  content : String
  timestamp : Nat
  uniqueId : Nat
  parent : Option Nat
  children : List Nat
  deriving DecidableEq, Repr

/-- A declared parameter of a Python callable: its name and whether it has a
default value. -/
structure Param where
  name : String
  hasDefault : Bool
  deriving DecidableEq, Repr

/-- Outcome of invoking a Python callable with keyword arguments:
a returned value, a `TypeError` from keyword-argument binding, or any other
exception raised by the body. -/
inductive CallResult where
  | ok (value : String)
  | typeError (msg : String)
  | raised (msg : String)
  deriving DecidableEq, Repr

/-- A registered tool: declared parameters (for `func(**arguments)` keyword
binding) and the behaviour of its body once binding succeeds. -/
structure Tool where
  params : List Param
  impl : List (String × String) → CallResult

/-- The agent state: the message list indexed by id, the root / current
pointers (`-1` in the source is modelled as `none`), the three pre-created
node ids, and the registered `function_map`. -/
structure AgentState where
  idToMessage : List Msg
  rootMessageId : Option Nat
  currentMessageId : Option Nat
  systemMessageId : Nat
  userMessageId : Nat
  instructionsMessageId : Nat
  functionMap : List (String × Tool)

/-- Replace the element at index `i` (no-op when out of range). -/
def updateAt {α : Type} (l : List α) (i : Nat) (f : α → α) : List α :=
  match l, i with
  | [], _ => []
  | m :: rest, 0 => f m :: rest
  | m :: rest, i + 1 => m :: updateAt rest i f

/-- `ReactAgent.add_message` (`src/agent.py`, lines 1215-1246): allocate the
next id, set the parent to the current pointer, append the id to the parent's
children, append the node, set the root pointer on the first node, and move
the current pointer to the new node. -/
def addMessage (st : AgentState) (role content : String) : Nat × AgentState :=
  let uniqueId := st.idToMessage.length
  let msg : Msg :=
    { role := role, content := content, timestamp := 0, uniqueId := uniqueId,
      parent := st.currentMessageId, children := [] }
  let linked :=
    match st.currentMessageId with
    | some p =>
      updateAt st.idToMessage p (fun m => { m with children := m.children ++ [uniqueId] })
    | none => st.idToMessage
  (uniqueId,
   { st with
     idToMessage := linked ++ [msg],
     rootMessageId := match st.rootMessageId with | none => some uniqueId | some r => some r,
     currentMessageId := some uniqueId })

/-- `ReactAgent.set_message_content` (`src/agent.py`, lines 1248-1252):
raises `ValueError` when the id is out of range, otherwise replaces the
content in place. -/
def setMessageContent (st : AgentState) (messageId : Int) (content : String) :
    Except String AgentState :=
  if messageId < 0 ∨ (st.idToMessage.length : Int) ≤ messageId then
    .error ("Invalid message_id: " ++ toString messageId)
  else
    .ok { st with
          idToMessage :=
            updateAt st.idToMessage messageId.toNat (fun m => { m with content := content }) }

/-- `ReactAgent.add_instructions_and_backtrack` (`src/agent.py`,
lines 1299-1318): first replaces the instruction node content, then validates
`at_message_id` and raises `ValueError` when it is out of range, otherwise
moves the current pointer.  The state component of the result is the state
left behind even when the error is raised (the content update has already
happened at that point). -/
def addInstructionsAndBacktrack (st : AgentState) (instructions : String)
    (atMessageId : Int) : Except String String × AgentState :=
  match setMessageContent st (st.instructionsMessageId : Int) instructions with
  | .error e => (.error e, st)
  | .ok st1 =>
    if atMessageId < 0 ∨ (st1.idToMessage.length : Int) ≤ atMessageId then
      (.error ("Invalid at_message_id: " ++ toString atMessageId), st1)
    else
      (.ok ("Instructions updated and backtracked to message " ++
           toString atMessageId ++ "."),
       { st1 with currentMessageId := some atMessageId.toNat })

/-- The mandatory `finish` tool (`ReactAgent.finish`): one required parameter
`result`, whose value it returns. -/
def finishTool : Tool :=
  { params := [{ name := "result", hasDefault := false }],
    impl := fun args => .ok ((assocFind args "result").getD "") }

/-- The state built by `ReactAgent.__init__`: a `system` node carrying the
system prompt, an empty `user` node, an empty `instructor` node, and the
`finish` tool registered in the function map. -/
def mkAgent (systemPrompt : String) : AgentState :=
  let st0 : AgentState :=
    { idToMessage := [], rootMessageId := none, currentMessageId := none,
      systemMessageId := 0, userMessageId := 1, instructionsMessageId := 2,
      functionMap := [] }
  let r0 := addMessage st0 "system" systemPrompt
  let st1 := { r0.2 with systemMessageId := r0.1 }
  let r1 := addMessage st1 "user" ""
  let st2 := { r1.2 with userMessageId := r1.1 }
  let r2 := addMessage st2 "instructor" ""
  let st3 := { r2.2 with instructionsMessageId := r2.1 }
  { st3 with functionMap := dictInsert st3.functionMap "finish" finishTool }

/-- `ReactAgent.add_functions`: register tools under their names
(re-registration overwrites). -/
def addFunctions (st : AgentState) (tools : List (String × Tool)) : AgentState :=
  { st with
    functionMap := tools.foldl (fun fm kv => dictInsert fm kv.1 kv.2) st.functionMap }

/-- Python keyword-argument binding for `func(**arguments)`: a supplied
keyword that is not a declared parameter raises `TypeError` (checked first by
CPython); then a required parameter (no default) that received no argument
raises `TypeError`; otherwise the body runs.  The `TypeError` message texts
abbreviate CPython's wording but carry the offending names. -/
def callTool (t : Tool) (args : List (String × String)) : CallResult :=
  match args.find? (fun kv => !(t.params.any (fun p => p.name == kv.1))) with
  | some kv => .typeError ("got an unexpected keyword argument " ++ kv.1)
  | none =>
    match (t.params.filter
        (fun p => !p.hasDefault && !(args.any (fun kv => kv.1 == p.name)))).map
        Param.name with
    | [] => t.impl args
    | missing =>
      .typeError ("missing required arguments: " ++ String.intercalate ", " missing)

/-- How a whole run ends: through the `finish` tool with a payload, or by
falling out of the step loop. -/
inductive RunOutcome where
  | finished (result : String)
  | exhausted
  deriving DecidableEq, Repr

/-- Rendering of `list(self.function_map.keys())` for the unknown-function
error message (Python's quoting of each name is elided). -/
def renderAvailable (fm : List (String × Tool)) : String :=
  "[" ++ String.intercalate ", " (fm.map Prod.fst) ++ "]"

/-- The body of the `for step in range(max_steps)` loop of `ReactAgent.run`
(`src/agent.py`, lines 1340-1414): query the model, record the `assistant`
node, parse, dispatch, record the `tool` result or error node, and return
early when a successful call to `finish` happens.  `stepIdx` counts loop
iterations (the model backend is modelled as the stream `llm` of responses);
`remaining` is the structural loop counter. -/
def runLoop (llm : Nat → String) (st : AgentState) (stepIdx : Nat) :
    Nat → RunOutcome × AgentState
  | 0 => (.exhausted, st)
  | remaining + 1 =>
    let response := llm stepIdx
    let st1 := (addMessage st "assistant" response).2
    match ResponseParser.parse response.toList with
    | .error e =>
      let st2 := (addMessage st1 "tool" ("Error parsing function call: " ++ e)).2
      runLoop llm st2 (stepIdx + 1) remaining
    | .ok parsed =>
      let functionName : String := ⟨parsed.name⟩
      let args : List (String × String) := parsed.args.map (fun kv => (⟨kv.1⟩, ⟨kv.2⟩))
      match assocFind st1.functionMap functionName with
      | none =>
        let st2 := (addMessage st1 "tool"
          ("Error: Function " ++ functionName ++ " not found. Available functions: " ++
            renderAvailable st1.functionMap)).2
        runLoop llm st2 (stepIdx + 1) remaining
      | some func =>
        match callTool func args with
        | .ok result =>
          if functionName = "finish" then (.finished result, st1)
          else
            let st2 := (addMessage st1 "tool" result).2
            runLoop llm st2 (stepIdx + 1) remaining
        | .typeError m =>
          let st2 := (addMessage st1 "tool"
            ("Error calling " ++ functionName ++ ": " ++ m)).2
          runLoop llm st2 (stepIdx + 1) remaining
        | .raised m =>
          let st2 := (addMessage st1 "tool"
            ("Error executing " ++ functionName ++ ": " ++ m)).2
          runLoop llm st2 (stepIdx + 1) remaining

/-- The fixed exhaustion message of `ReactAgent.run` (`src/agent.py`,
line 1417), with the clamped step budget interpolated. -/
def exhaustMessage (n : Nat) : String :=
  "Agent reached maximum steps (" ++ toString n ++ ") without completing the task."

/-- `ReactAgent.run` (`src/agent.py`, lines 1321-1417): clamp the requested
budget to 100, set the user node to the task, run the loop, and either return
the `finish` payload or the fixed exhaustion message. -/
def run (llm : Nat → String) (st : AgentState) (task : String) (maxSteps : Nat) :
    String × AgentState :=
  let m := min maxSteps 100
  match setMessageContent st (st.userMessageId : Int) task with
  | .error e => (e, st)
  | .ok st1 =>
    match runLoop llm st1 0 m with
    | (.finished r, st2) => (r, st2)
    | (.exhausted, st2) => (exhaustMessage m, st2)

/-- The operations of claim C8 on the message tree: node creation and the
backtracking pointer move. -/
inductive AgentOp where
  | create (role content : String)
  | backtrack (instructions : String) (atMessageId : Int)

/-- Apply one tree operation (errors of `backtrack` leave the partially
mutated state behind, as in the source where the exception propagates). -/
def applyOp (st : AgentState) : AgentOp → AgentState
  | .create role content => (addMessage st role content).2
  | .backtrack instr atId => (addInstructionsAndBacktrack st instr atId).2

/-- Apply a sequence of tree operations. -/
def applyOps (st : AgentState) (ops : List AgentOp) : AgentState :=
  ops.foldl applyOp st

/-- The structural tree invariant of claim C8 over the message list:
ids are the creation indices (so they never change), the unique null-parent
node is the first created one, and every other node's parent is a strictly
smaller id. -/
def TreeWF (msgs : List Msg) : Prop :=
  (∀ i m, msgs.get? i = some m → m.uniqueId = i) ∧
  (∀ i m, msgs.get? i = some m → (m.parent = none ↔ i = 0)) ∧
  (∀ i m p, msgs.get? i = some m → m.parent = some p → p < i)

/-- Auxiliary pointer invariant: the current pointer is in range and is set
as soon as a node exists. -/
def PtrWF (msgs : List Msg) (cur : Option Nat) : Prop :=
  (∀ c, cur = some c → c < msgs.length) ∧ (msgs ≠ [] → cur ≠ none)

end Agent

/-! ## `SWEEnvironment.generate_patch` (`src/envs.py`, lines 40-56) -/

namespace Envs

/-- `SWEEnvironment.generate_patch`: given the output of the external
`git add -A && git diff --cached` execution and the finish result, return the
stripped patch when it is non-empty, else the result text with the
"No changes detected" notice appended. -/
def generatePatch (gitDiffCachedOutput : String) (result : String) : String :=
  if strip gitDiffCachedOutput.toList ≠ [] then
    ⟨strip gitDiffCachedOutput.toList⟩
  else
    result ++ "\n\nNo changes detected to generate a patch."

end Envs

/-! ## Recovery Controller (spec §4.5) -/

namespace Recovery

/-- Modelled from the spec: the Recovery Controller (spec §4.5) is code of
this repository that is absent from `src/` (the driver passes recovery-style
hooks to an agent constructor that does not exist in `src/agent.py`).  Its
rolling failure log is capped at the 10 most recent entries, oldest evicted
first. -/
def recordFailure (log : List String) (kind : String) : List String :=
  let l := log ++ [kind]
  l.drop (l.length - 10)

/-- The 5 most recent entries of the rolling log. -/
def lastFive (log : List String) : List String := log.drop (log.length - 5)

/-- Modelled from the spec: loop detection examines the 5 most recent
entries and declares a loop exactly when some single error kind occurs at
least 3 times among those 5. -/
def loopDetected (log : List String) : Bool :=
  (lastFive log).any (fun k => 3 ≤ (lastFive log).count k)

/-- Feed a sequence of failure kinds into a fresh controller. -/
def feed (kinds : List String) : List String :=
  kinds.foldl recordFailure []

end Recovery

/-! ## Theorems -/

namespace PyStr

theorem splitOnSubGo_fuel {p : Str} :
    ∀ {n m : Nat} {s : Str}, s.length ≤ n → s.length ≤ m →
      splitOnSubGo p n s = splitOnSubGo p m s := by
  intro n
  induction n with
  | zero =>
    intro m s hn _
    cases s with
    | nil => cases m <;> rfl
    | cons c cs => simp at hn
  | succ n ih =>
    intro m s hn hm
    cases s with
    | nil => cases m <;> rfl
    | cons c cs =>
      cases m with
      | zero => simp at hm
      | succ m =>
        simp only [splitOnSubGo]
        by_cases h : p ≠ [] ∧ occursAt (c :: cs) p 0
        · simp only [if_pos h]
          have hp : 1 ≤ p.length := by
            cases hq : p with
            | nil => exact absurd hq h.1
            | cons a as => simp
          have hlen : ((c :: cs).drop p.length).length ≤ n := by
            simp only [List.length_drop, List.length_cons]
            simp only [List.length_cons] at hn
            omega
          have hlen' : ((c :: cs).drop p.length).length ≤ m := by
            simp only [List.length_drop, List.length_cons]
            simp only [List.length_cons] at hm
            omega
          rw [ih hlen hlen']
        · simp only [if_neg h]
          simp only [List.length_cons] at hn hm
          exact congrArg _ (ih (by omega) (by omega))

/-- Unfolding equation of `splitOnSub` at a separator occurrence. -/
theorem splitOnSub_pos {s p : Str} (hp : p ≠ []) (ho : occursAt s p 0) :
    splitOnSub s p = [] :: splitOnSub (s.drop p.length) p := by
  cases s with
  | nil =>
    exfalso
    cases p with
    | nil => exact hp rfl
    | cons a as => simp [occursAt, beginsWith] at ho
  | cons c cs =>
    show splitOnSubGo p (c :: cs).length (c :: cs) = _
    simp only [List.length_cons, splitOnSubGo, if_pos (And.intro hp ho)]
    have hp1 : 1 ≤ p.length := by
      cases hq : p with
      | nil => exact absurd hq hp
      | cons a as => simp
    refine congrArg _ (splitOnSubGo_fuel ?_ ?_) <;>
      simp only [List.length_drop, List.length_cons] <;> omega

/-- Unfolding equation of `splitOnSub` when the separator does not occur
at the head. -/
theorem splitOnSub_neg {s : Str} {c : Char} {cs p : Str}
    (hs : s = c :: cs) (h : ¬(p ≠ [] ∧ occursAt s p 0)) :
    splitOnSub s p = consHead c (splitOnSub cs p) := by
  subst hs
  show splitOnSubGo p (c :: cs).length (c :: cs) = _
  simp only [List.length_cons, splitOnSubGo, if_neg h]
  exact congrArg _ (splitOnSubGo_fuel (Nat.le_refl _) (Nat.le_refl _))

theorem beginsWith_iff {p s : Str} : beginsWith p s = true ↔ ∃ t, s = p ++ t := by
  induction p generalizing s with
  | nil =>
    simp only [beginsWith, List.nil_append]
    exact ⟨fun _ => ⟨s, rfl⟩, fun _ => trivial⟩
  | cons a as ih =>
    cases s with
    | nil => simp [beginsWith]
    | cons b bs =>
      simp only [beginsWith, Bool.and_eq_true, decide_eq_true_eq, ih,
        List.cons_append, List.cons.injEq]
      constructor
      · rintro ⟨rfl, t, rfl⟩
        exact ⟨t, rfl, rfl⟩
      · rintro ⟨t, rfl, rfl⟩
        exact ⟨rfl, t, rfl⟩

theorem occursAt_le_length {t p : Str} {i : Nat} (hp : p ≠ [])
    (h : occursAt t p i = true) : i + p.length ≤ t.length := by
  rcases beginsWith_iff.mp h with ⟨tail, htail⟩
  have hlen := congrArg List.length htail
  simp only [List.length_drop, List.length_append] at hlen
  have hi : i < t.length := by
    by_contra hc
    have : t.drop i = [] := List.drop_eq_nil_of_le (by omega)
    rw [this] at htail
    have := congrArg List.length htail.symm
    simp only [List.length_append, List.length_nil] at this
    cases p with
    | nil => exact hp rfl
    | cons x xs => simp at this
  omega

theorem rfindAux_none {t p : Str} {i : Nat} :
    rfindAux t p i = none ↔ ∀ j, j ≤ i → occursAt t p j = false := by
  induction i with
  | zero =>
    simp only [rfindAux]
    constructor
    · intro h j hj
      have : j = 0 := Nat.le_zero.mp hj
      subst this
      by_contra hc
      simp [Bool.not_eq_false] at hc
      simp [hc] at h
    · intro h
      simp [h 0 (Nat.le_refl 0)]
  | succ i ih =>
    simp only [rfindAux]
    by_cases hocc : occursAt t p (i + 1) = true
    · simp only [if_pos hocc]
      constructor
      · intro h
        exact absurd h (by simp)
      · intro h
        exact absurd hocc (by simp [h (i + 1) (Nat.le_refl _)])
    · simp only [if_neg hocc, ih]
      constructor
      · intro h j hj
        rcases Nat.lt_or_ge j (i + 1) with hlt | hge
        · exact h j (by omega)
        · have : j = i + 1 := by omega
          subst this
          simpa using hocc
      · intro h j hj
        exact h j (by omega)

theorem rfindAux_some {t p : Str} {i j : Nat} (h : rfindAux t p i = some j) :
    occursAt t p j = true ∧ j ≤ i ∧ ∀ k, j < k → k ≤ i → occursAt t p k = false := by
  induction i with
  | zero =>
    simp only [rfindAux] at h
    by_cases hocc : occursAt t p 0 = true
    · simp only [if_pos hocc, Option.some.injEq] at h
      subst h
      exact ⟨hocc, Nat.le_refl _, fun k hk hk' => by omega⟩
    · simp [hocc] at h
  | succ i ih =>
    simp only [rfindAux] at h
    by_cases hocc : occursAt t p (i + 1) = true
    · simp only [if_pos hocc, Option.some.injEq] at h
      subst h
      exact ⟨hocc, Nat.le_refl _, fun k hk hk' => by omega⟩
    · simp only [if_neg hocc] at h
      obtain ⟨h1, h2, h3⟩ := ih h
      refine ⟨h1, by omega, fun k hk hk' => ?_⟩
      rcases Nat.lt_or_ge k (i + 1) with hlt | hge
      · exact h3 k hk (by omega)
      · have : k = i + 1 := by omega
        subst this
        simpa using hocc

theorem rfindSub_none_iff {t p : Str} {e : Nat} (hp : p ≠ []) :
    rfindSub t p e = none ↔
      ∀ j, j + p.length ≤ e → occursAt t p j = false := by
  have hp1 : 1 ≤ p.length := by
    cases hq : p with
    | nil => exact absurd hq hp
    | cons a as => simp
  unfold rfindSub
  by_cases hle : p.length ≤ e
  · simp only [if_pos hle, rfindAux_none]
    constructor
    · intro h j hj
      exact h j (by omega)
    · intro h j hj
      exact h j (by omega)
  · simp only [if_neg hle]
    constructor
    · intro _ j hj
      omega
    · intro _
      trivial

theorem rfindSub_some {t p : Str} {e i : Nat} (h : rfindSub t p e = some i) :
    occursAt t p i = true ∧ i + p.length ≤ e ∧
      ∀ j, occursAt t p j = true → j + p.length ≤ e → j ≤ i := by
  unfold rfindSub at h
  by_cases hle : p.length ≤ e
  · simp only [if_pos hle] at h
    obtain ⟨h1, h2, h3⟩ := rfindAux_some h
    refine ⟨h1, by omega, fun j hj hj' => ?_⟩
    by_contra hc
    have : occursAt t p j = false := h3 j (by omega) (by omega)
    simp [this] at hj
  · simp [hle] at h

theorem occursAt_false_of_le {t p : Str} {i : Nat} (hp : p ≠ [])
    (h : t.length ≤ i) : occursAt t p i = false := by
  unfold occursAt
  rw [List.drop_eq_nil_of_le h]
  cases p with
  | nil => exact absurd rfl hp
  | cons a as => rfl

end PyStr

theorem dropWhile_length_le {α : Type} (p : α → Bool) (l : List α) :
    (List.dropWhile p l).length ≤ l.length := by
  have h := congrArg List.length (List.takeWhile_append_dropWhile p l)
  simp only [List.length_append] at h
  omega

theorem dropWhile_eq_self_of_length {α : Type} {p : α → Bool} {l : List α}
    (h : (List.dropWhile p l).length = l.length) : List.dropWhile p l = l := by
  have happ := List.takeWhile_append_dropWhile p l
  have hlen := congrArg List.length happ
  simp only [List.length_append] at hlen
  have htw : List.takeWhile p l = [] :=
    List.eq_nil_of_length_eq_zero (by omega)
  rw [htw] at happ
  simpa using happ

namespace PyStr

theorem head_not_space_of_lstrip_eq_self {c : Char} {cs : Str}
    (h : lstrip (c :: cs) = c :: cs) : isSpace c = false := by
  by_contra hc
  simp only [Bool.not_eq_false] at hc
  unfold lstrip at h
  rw [List.dropWhile_cons_of_pos hc] at h
  have := dropWhile_length_le isSpace cs
  have := congrArg List.length h
  simp only [List.length_cons] at this
  omega

theorem strip_eq_self_parts {s : Str} (h : strip s = s) :
    lstrip s = s ∧ rstrip s = s := by
  have h1 : (lstrip s).length ≤ s.length := dropWhile_length_le isSpace s
  have h2 : (strip s).length ≤ (lstrip s).length := by
    unfold strip rstrip
    have h3 := dropWhile_length_le isSpace (lstrip s).reverse
    simp only [List.length_reverse] at h3 ⊢
    exact h3
  have hs : (strip s).length = s.length := by rw [h]
  have hll : (lstrip s).length = s.length := by omega
  have hl : lstrip s = s := dropWhile_eq_self_of_length hll
  refine ⟨hl, ?_⟩
  have hr : rstrip s = strip s := by
    unfold strip
    rw [hl]
  rw [hr, h]

theorem lstrip_strip (s : Str) : lstrip (strip s) = strip s := by
  cases hss : strip s with
  | nil => rfl
  | cons c rest =>
    have hrev : (lstrip s).reverse =
        List.takeWhile isSpace (lstrip s).reverse ++
          List.dropWhile isSpace (lstrip s).reverse :=
      (List.takeWhile_append_dropWhile isSpace (lstrip s).reverse).symm
    have hdecomp : lstrip s =
        strip s ++ (List.takeWhile isSpace (lstrip s).reverse).reverse := by
      have := congrArg List.reverse hrev
      simp only [List.reverse_reverse, List.reverse_append] at this
      exact this
    have hidem : lstrip (lstrip s) = lstrip s := List.dropWhile_idempotent isSpace s
    rw [hss] at hdecomp
    have hconsform : lstrip (c :: (rest ++ (List.takeWhile isSpace (lstrip s).reverse).reverse))
        = c :: (rest ++ (List.takeWhile isSpace (lstrip s).reverse).reverse) := by
      rw [← List.cons_append, ← hdecomp]
      exact hidem
    have hc : isSpace c = false := head_not_space_of_lstrip_eq_self hconsform
    unfold lstrip
    rw [List.dropWhile_cons_of_neg (by simp [hc])]

theorem rstrip_idem (s : Str) : rstrip (rstrip s) = rstrip s := by
  unfold rstrip
  rw [List.reverse_reverse]
  rw [List.dropWhile_idempotent]

theorem strip_idem (s : Str) : strip (strip s) = strip s := by
  conv_lhs => rw [strip]
  rw [lstrip_strip]
  unfold strip
  rw [rstrip_idem]

theorem lstrip_of_strip_eq_self_cons {c : Char} {cs : Str}
    (h : strip (c :: cs) = c :: cs) : isSpace c = false :=
  head_not_space_of_lstrip_eq_self (strip_eq_self_parts h).1

theorem splitFirstNl_no_nl {l : Str} (h : ∀ c ∈ l, c ≠ '\n') :
    splitFirstNl l = (l, none) := by
  induction l with
  | nil => rfl
  | cons c cs ih =>
    have hc : c ≠ '\n' := h c (List.mem_cons_self c cs)
    simp only [splitFirstNl, if_neg hc]
    rw [ih (fun d hd => h d (List.mem_cons_of_mem c hd))]

end PyStr

theorem assocFind_dictInsert_self {κ ν : Type} [DecidableEq κ]
    (m : List (κ × ν)) (k : κ) (v : ν) :
    assocFind (dictInsert m k v) k = some v := by
  induction m with
  | nil => simp [dictInsert, assocFind]
  | cons kv rest ih =>
    obtain ⟨k', v'⟩ := kv
    by_cases h : k' = k
    · subst h
      simp [dictInsert, assocFind]
    · simp [dictInsert, assocFind, h, ih]

theorem assocFind_dictInsert_other {κ ν : Type} [DecidableEq κ]
    (m : List (κ × ν)) {k k' : κ} (v : ν) (h : k' ≠ k) :
    assocFind (dictInsert m k v) k' = assocFind m k' := by
  induction m with
  | nil =>
    simp only [dictInsert, assocFind]
    rw [if_neg (fun hh : k = k' => h hh.symm)]
  | cons kv rest ih =>
    obtain ⟨k0, v0⟩ := kv
    by_cases h0 : k0 = k
    · subst h0
      simp only [dictInsert, if_pos rfl, assocFind]
      rw [if_neg (fun hh : k0 = k' => h hh.symm)]
      rw [if_neg (fun hh : k0 = k' => h hh.symm)]
    · simp only [dictInsert, if_neg h0, assocFind]
      by_cases h1 : k0 = k'
      · rw [if_pos h1, if_pos h1]
      · rw [if_neg h1, if_neg h1]
        exact ih

theorem countKey_dictInsert_self {κ ν : Type} [DecidableEq κ]
    (m : List (κ × ν)) (k : κ) (v : ν) :
    countKey (dictInsert m k v) k = max (countKey m k) 1 := by
  induction m with
  | nil => simp [dictInsert, countKey]
  | cons kv rest ih =>
    obtain ⟨k', v'⟩ := kv
    simp only [dictInsert]
    by_cases h : k' = k
    · subst h
      rw [if_pos rfl]
      simp [countKey, List.filter_cons]
    · rw [if_neg h]
      simp only [countKey, List.filter_cons, decide_eq_true_eq, if_neg h]
      simpa [countKey] using ih

theorem countKey_dictInsert_other {κ ν : Type} [DecidableEq κ]
    (m : List (κ × ν)) {k k' : κ} (v : ν) (h : k' ≠ k) :
    countKey (dictInsert m k v) k' = countKey m k' := by
  induction m with
  | nil =>
    simp only [dictInsert, countKey, List.filter_cons, decide_eq_true_eq]
    rw [if_neg (fun hh : k = k' => h hh.symm)]
  | cons kv rest ih =>
    obtain ⟨k0, v0⟩ := kv
    simp only [dictInsert]
    by_cases h0 : k0 = k
    · subst h0
      rw [if_pos rfl]
      simp only [countKey, List.filter_cons, decide_eq_true_eq]
      rw [if_neg (fun hh : k0 = k' => h hh.symm)]
      rw [if_neg (fun hh : k0 = k' => h hh.symm)]
    · rw [if_neg h0]
      simp only [countKey, List.filter_cons, decide_eq_true_eq]
      by_cases h1 : k0 = k'
      · rw [if_pos h1, if_pos h1]
        simpa [countKey] using ih
      · rw [if_neg h1, if_neg h1]
        simpa [countKey] using ih

namespace ResponseParser

theorem END_CALL_ne_nil : END_CALL ≠ [] := by decide

theorem BEGIN_CALL_ne_nil : BEGIN_CALL ≠ [] := by decide

theorem ARG_SEP_ne_nil : ARG_SEP ≠ [] := by decide

/-- C4: for every input text, `parse` locates the last occurrence of the end
marker (failing when it is absent) and the last occurrence of the begin
marker strictly before that end marker (failing when that is absent); a
response containing the literal marker strings inside its reasoning prose
followed by one well-formed call at the very end decodes to exactly that
final call, with everything before the chosen begin marker returned as the
trimmed reasoning. -/
theorem C4_parse_uses_last_markers :
    (∀ t : Str, (∀ i, occursAt t END_CALL i = false) →
      parse t = .error "No END_CALL marker found in response") ∧
    (∀ t : Str, ∀ e, rfindSub t END_CALL t.length = some e →
      occursAt t END_CALL e = true ∧ ∀ j, occursAt t END_CALL j = true → j ≤ e) ∧
    (∀ t : Str, ∀ e, rfindSub t END_CALL t.length = some e →
      (∀ i, i + BEGIN_CALL.length ≤ e → occursAt t BEGIN_CALL i = false) →
      parse t = .error "No BEGIN_CALL marker found before END_CALL") ∧
    (∀ t : Str, ∀ e b, rfindSub t END_CALL t.length = some e →
      rfindSub t BEGIN_CALL e = some b →
      occursAt t BEGIN_CALL b = true ∧ b + BEGIN_CALL.length ≤ e ∧
      (∀ j, occursAt t BEGIN_CALL j = true → j + BEGIN_CALL.length ≤ e → j ≤ b) ∧
      (∀ pc, parse t = .ok pc → pc.thought = strip (t.take b))) ∧
    parse (("prose that even mentions ----BEGIN_FUNCTION_CALL---- and " ++
        "----END_FUNCTION_CALL---- early on\n----BEGIN_FUNCTION_CALL----\n" ++
        "finish\n----ARG----\nresult\ndone\n----END_FUNCTION_CALL----").toList)
      = .ok { thought := ("prose that even mentions ----BEGIN_FUNCTION_CALL----" ++
                " and ----END_FUNCTION_CALL---- early on").toList,
              name := "finish".toList,
              args := [("result".toList, "done".toList)] } := by
  refine ⟨?_, ?_, ?_, ?_, by rfl⟩
  · intro t h
    have hn : rfindSub t END_CALL t.length = none :=
      (rfindSub_none_iff END_CALL_ne_nil).mpr (fun j _ => h j)
    simp [parse, hn]
  · intro t e he
    obtain ⟨h1, _, h3⟩ := rfindSub_some he
    exact ⟨h1, fun j hj => h3 j hj (occursAt_le_length END_CALL_ne_nil hj)⟩
  · intro t e he hb
    have hn : rfindSub t BEGIN_CALL e = none :=
      (rfindSub_none_iff BEGIN_CALL_ne_nil).mpr hb
    simp [parse, he, hn]
  · intro t e b he hb
    obtain ⟨h1, h2, h3⟩ := rfindSub_some hb
    refine ⟨h1, h2, h3, ?_⟩
    intro pc hpc
    simp only [parse, he, hb] at hpc
    split at hpc
    · exact absurd hpc (by simp)
    · split at hpc
      · exact absurd hpc (by simp)
      · split at hpc
        · exact absurd hpc (by simp)
        · cases hpc
          rfl

/-- Closed instantiation of `C4_parse_uses_last_markers`: a text with no end
marker fails with the "No END_CALL marker" error. -/
theorem C4_parse_uses_last_markers_witness :
    parse ("hi".toList) = .error "No END_CALL marker found in response" := by
  refine C4_parse_uses_last_markers.1 ("hi".toList) ?_
  intro i
  match i with
  | 0 => decide
  | 1 => decide
  | n + 2 =>
    exact occursAt_false_of_le END_CALL_ne_nil (by simp)

theorem parseArgsFrom_ok_spec :
    ∀ (segs : List Str) (i : Nat) (acc : List (Str × Str)),
      (∀ s ∈ segs, (segParse s).isSome = true) →
      ∃ m, parseArgsFrom i acc segs = .ok m ∧
        (∀ x v, lastValue segs x = some v →
          assocFind m x = some v ∧ countKey m x = max (countKey acc x) 1) ∧
        (∀ x, lastValue segs x = none →
          assocFind m x = assocFind acc x ∧ countKey m x = countKey acc x) := by
  intro segs
  induction segs with
  | nil =>
    intro i acc _
    refine ⟨acc, rfl, ?_, ?_⟩
    · intro x v hv
      simp [lastValue] at hv
    · intro x _
      exact ⟨rfl, rfl⟩
  | cons seg rest ih =>
    intro i acc h
    have hseg : (segParse seg).isSome = true := h seg (List.mem_cons_self _ _)
    obtain ⟨kv, hkv⟩ := Option.isSome_iff_exists.mp hseg
    obtain ⟨k, v⟩ := kv
    have hrest : ∀ s ∈ rest, (segParse s).isSome = true :=
      fun s hs => h s (List.mem_cons_of_mem _ hs)
    obtain ⟨m, hm, hsome, hnone⟩ := ih (i + 1) (dictInsert acc k v) hrest
    refine ⟨m, ?_, ?_, ?_⟩
    · simp only [parseArgsFrom, hkv]
      exact hm
    · intro x v0 hv0
      simp only [lastValue, hkv] at hv0
      cases hlv : lastValue rest x with
      | some w =>
        rw [hlv] at hv0
        simp only at hv0
        cases hv0
        obtain ⟨ha, hb⟩ := hsome x v0 hlv
        refine ⟨ha, ?_⟩
        by_cases hk : k = x
        · subst hk
          rw [hb, countKey_dictInsert_self]
          omega
        · rw [hb, countKey_dictInsert_other _ _ (fun hh => hk hh.symm)]
      | none =>
        rw [hlv] at hv0
        simp only at hv0
        by_cases hk : k = x
        · subst hk
          rw [if_pos rfl] at hv0
          cases hv0
          obtain ⟨ha, hb⟩ := hnone k hlv
          rw [ha, hb, assocFind_dictInsert_self, countKey_dictInsert_self]
          exact ⟨rfl, rfl⟩
        · rw [if_neg hk] at hv0
          cases hv0
    · intro x hx0
      simp only [lastValue, hkv] at hx0
      cases hlv : lastValue rest x with
      | some w =>
        rw [hlv] at hx0
        simp at hx0
      | none =>
        rw [hlv] at hx0
        simp only at hx0
        by_cases hk : k = x
        · subst hk
          rw [if_pos rfl] at hx0
          cases hx0
        · obtain ⟨ha, hb⟩ := hnone x hlv
          rw [ha, hb, assocFind_dictInsert_other _ _ (fun hh => hk hh.symm),
            countKey_dictInsert_other _ _ (fun hh => hk hh.symm)]
          exact ⟨rfl, rfl⟩

theorem lastValue_append_some {b : List Str} {x v : Str} (a : List Str)
    (h : lastValue b x = some v) : lastValue (a ++ b) x = some v := by
  induction a with
  | nil => simpa using h
  | cons s as ih =>
    simp only [List.cons_append, lastValue, List.append_eq]
    rw [ih]

theorem lastValue_none_of_not_named {segs : List Str} {x : Str}
    (h : ∀ s ∈ segs, ∀ w, segParse s ≠ some (x, w)) :
    lastValue segs x = none := by
  induction segs with
  | nil => rfl
  | cons s rest ih =>
    have hr : lastValue rest x = none :=
      ih (fun s' hs' => h s' (List.mem_cons_of_mem _ hs'))
    simp only [lastValue, hr]
    cases hsp : segParse s with
    | none => rfl
    | some kv =>
      obtain ⟨k, v⟩ := kv
      by_cases hk : k = x
      · subst hk
        exact absurd hsp (h s (List.mem_cons_self _ _) v)
      · simp [hk]

/-- C6: for every call body in which two argument segments carry the same
name, `parse` succeeds and returns a single entry for that name holding the
value of the later segment (last occurrence wins); duplicate names are
defined behaviour, not an error. -/
theorem C6_duplicate_argument_last_wins :
    (∀ (i : Nat) (segs : List Str),
      (∀ s ∈ segs, (segParse s).isSome = true) →
      ∃ m, parseArgsFrom i [] segs = .ok m ∧
        ∀ x v, lastValue segs x = some v →
          assocFind m x = some v ∧ countKey m x = 1) ∧
    (∀ (earlier : List Str) (s2 : Str) (later : List Str) (x v2 : Str),
      segParse s2 = some (x, v2) →
      (∀ s ∈ later, ∀ w, segParse s ≠ some (x, w)) →
      lastValue (earlier ++ s2 :: later) x = some v2) ∧
    parse (("t\n----BEGIN_FUNCTION_CALL----\nf\n----ARG----\nx\nv1\n" ++
        "----ARG----\nx\nv2\n----END_FUNCTION_CALL----").toList)
      = .ok { thought := "t".toList, name := "f".toList,
              args := [("x".toList, "v2".toList)] } := by
  refine ⟨?_, ?_, by rfl⟩
  · intro i segs h
    obtain ⟨m, hm, hsome, _⟩ := parseArgsFrom_ok_spec segs i [] h
    refine ⟨m, hm, ?_⟩
    intro x v hv
    obtain ⟨ha, hb⟩ := hsome x v hv
    refine ⟨ha, ?_⟩
    simpa [countKey] using hb
  · intro earlier s2 later x v2 h2 hlater
    refine lastValue_append_some earlier ?_
    simp only [lastValue, lastValue_none_of_not_named hlater, h2]
    simp

/-- Closed instantiation of `C6_duplicate_argument_last_wins`: two segments
named `x` yield a single `x` entry holding the later value. -/
theorem C6_duplicate_argument_last_wins_witness :
    ∃ m, parseArgsFrom 1 [] ["x\nv1".toList, "x\nv2".toList] = .ok m ∧
      assocFind m ("x".toList) = some ("v2".toList) ∧
      countKey m ("x".toList) = 1 := by
  obtain ⟨m, hm, hspec⟩ :=
    C6_duplicate_argument_last_wins.1 1 ["x\nv1".toList, "x\nv2".toList] (by decide)
  have h2 := hspec ("x".toList) ("v2".toList) (by decide)
  exact ⟨m, hm, h2.1, h2.2⟩

/-- C10: an argument segment whose stripped text contains a non-blank name
but no newline after it (no value lines) does not make `parse` fail: the
argument name is mapped to the empty string. -/
theorem C10_name_only_argument_maps_to_empty :
    (∀ s : Str, strip s ≠ [] → (∀ c ∈ strip s, c ≠ '\n') →
      segParse s = some (strip s, [])) ∧
    (∀ (i : Nat) (acc : List (Str × Str)) (rest : List Str) (s : Str),
      strip s ≠ [] → (∀ c ∈ strip s, c ≠ '\n') →
      parseArgsFrom i acc (s :: rest) =
        parseArgsFrom (i + 1) (dictInsert acc (strip s) []) rest) ∧
    parse (("t\n----BEGIN_FUNCTION_CALL----\nf\n----ARG----\nverbose\ntrue\n" ++
        "----ARG----\nflag\n----END_FUNCTION_CALL----").toList)
      = .ok { thought := "t".toList, name := "f".toList,
              args := [("verbose".toList, "true".toList), ("flag".toList, [])] } := by
  have hseg : ∀ s : Str, strip s ≠ [] → (∀ c ∈ strip s, c ≠ '\n') →
      segParse s = some (strip s, []) := by
    intro s h1 h2
    unfold segParse
    simp only [splitFirstNl_no_nl h2, strip_idem]
    rw [if_neg h1]
  refine ⟨hseg, ?_, by rfl⟩
  intro i acc rest s h1 h2
  simp only [parseArgsFrom, hseg s h1 h2]

/-- Closed instantiation of `C10_name_only_argument_maps_to_empty` at the
segment `"\nflag\n"`. -/
theorem C10_name_only_argument_maps_to_empty_witness :
    segParse ("\nflag\n".toList) = some ("flag".toList, []) := by
  have h := C10_name_only_argument_maps_to_empty.1 ("\nflag\n".toList)
    (by decide) (by decide)
  simpa using h

end ResponseParser

namespace Recovery

/-- C3 (counterexample): under the spec rule that a loop is declared when
some kind occurs at least 3 times among the 5 most recent entries, the kind
sequence `[A, B, A, B, A]` DOES trigger a loop declaration (`A` occurs 3
times among those 5), contrary to the claim that it does not. -/
theorem C3_abab_sequence_triggers :
    loopDetected (feed ["A", "B", "A", "B", "A"]) = true := by rfl

/-- C3 (amended): the Recovery Controller examines the 5 most recent entries
of its rolling failure log and declares a loop exactly when some single
error kind occurs at least 3 times among those 5; `[A, A, B, A, A]` triggers
a loop declaration, `[A, B, A, B, A]` also triggers one (`A` occurs 3 times
among the last 5), and a sequence such as `[A, A, B, B, C]` in which no kind
reaches 3 does not. -/
theorem C3_loop_detection_threshold :
    (∀ log : List String, loopDetected log = true ↔
      ∃ k, k ∈ lastFive log ∧ 3 ≤ (lastFive log).count k) ∧
    loopDetected (feed ["A", "A", "B", "A", "A"]) = true ∧
    loopDetected (feed ["A", "B", "A", "B", "A"]) = true ∧
    loopDetected (feed ["A", "A", "B", "B", "C"]) = false := by
  refine ⟨?_, by rfl, by rfl, by rfl⟩
  intro log
  simp [loopDetected, List.any_eq_true]

/-- Closed instantiation of `C3_loop_detection_threshold`: the detected loop
on `[A, A, B, A, A]` is explained by a kind occurring at least 3 times. -/
theorem C3_loop_detection_threshold_witness :
    ∃ k, k ∈ lastFive (feed ["A", "A", "B", "A", "A"]) ∧
      3 ≤ (lastFive (feed ["A", "A", "B", "A", "A"])).count k :=
  (C3_loop_detection_threshold.1 _).mp C3_loop_detection_threshold.2.1

end Recovery

namespace Agent

theorem updateAt_length {α : Type} (l : List α) (i : Nat) (f : α → α) :
    (updateAt l i f).length = l.length := by
  induction l generalizing i with
  | nil => rfl
  | cons a rest ih =>
    cases i with
    | zero => rfl
    | succ i => simp [updateAt, ih]

theorem updateAt_get?_self {α : Type} {l : List α} {i : Nat} (f : α → α)
    (h : i < l.length) : (updateAt l i f).get? i = (l.get? i).map f := by
  induction l generalizing i with
  | nil => simp at h
  | cons a rest ih =>
    cases i with
    | zero => rfl
    | succ i =>
      simp only [updateAt, List.get?_cons_succ]
      exact ih (by simpa using h)

theorem updateAt_get?_other {α : Type} {l : List α} {i j : Nat} (f : α → α)
    (h : j ≠ i) : (updateAt l i f).get? j = l.get? j := by
  induction l generalizing i j with
  | nil => rfl
  | cons a rest ih =>
    cases i with
    | zero =>
      cases j with
      | zero => exact absurd rfl h
      | succ j => rfl
    | succ i =>
      cases j with
      | zero => rfl
      | succ j =>
        simp only [updateAt, List.get?_cons_succ]
        exact ih (fun hh => h (by omega))

/-- C9: calling `add_instructions_and_backtrack` with an out-of-range
`at_message_id` raises the `Invalid at_message_id` error, but the instruction
node content has already been replaced before the validation runs, so the
operation is not atomic: on failure the instruction content is changed while
the current pointer (and the rest of the tree) is unchanged. -/
theorem C9_backtrack_failure_not_atomic :
    ∀ (st : AgentState) (instr : String) (atId : Int),
      st.instructionsMessageId < st.idToMessage.length →
      (atId < 0 ∨ (st.idToMessage.length : Int) ≤ atId) →
      (addInstructionsAndBacktrack st instr atId).1 =
          .error ("Invalid at_message_id: " ++ toString atId) ∧
      ((addInstructionsAndBacktrack st instr atId).2.idToMessage.get?
          st.instructionsMessageId).map Msg.content = some instr ∧
      (addInstructionsAndBacktrack st instr atId).2.currentMessageId =
          st.currentMessageId ∧
      (addInstructionsAndBacktrack st instr atId).2.idToMessage.length =
          st.idToMessage.length := by
  intro st instr atId hin hout
  have hcond : ¬((st.instructionsMessageId : Int) < 0 ∨
      (st.idToMessage.length : Int) ≤ (st.instructionsMessageId : Int)) := by
    omega
  have hset : setMessageContent st (st.instructionsMessageId : Int) instr =
      .ok { st with
            idToMessage := updateAt st.idToMessage st.instructionsMessageId
              (fun m => { m with content := instr }) } := by
    unfold setMessageContent
    rw [if_neg hcond]
    simp
  have hfail : ((atId < 0) ∨
      (((updateAt st.idToMessage st.instructionsMessageId
        (fun m => { m with content := instr })).length : Int) ≤ atId)) := by
    rw [updateAt_length]
    omega
  unfold addInstructionsAndBacktrack
  rw [hset]
  simp only [if_pos hfail]
  refine ⟨trivial, ?_, trivial, by simp [updateAt_length]⟩
  rw [updateAt_get?_self _ hin]
  cases hg : st.idToMessage.get? st.instructionsMessageId with
  | none =>
    exact absurd (List.get?_eq_none.mp hg) (by omega)
  | some msg => rfl

theorem addMessage_msgs (st : AgentState) (role content : String) :
    (addMessage st role content).2.idToMessage =
      (match st.currentMessageId with
       | some p => updateAt st.idToMessage p
           (fun m => { m with children := m.children ++ [st.idToMessage.length] })
       | none => st.idToMessage) ++
      [{ role := role, content := content, timestamp := 0,
         uniqueId := st.idToMessage.length, parent := st.currentMessageId,
         children := [] }] := rfl

theorem addMessage_current (st : AgentState) (role content : String) :
    (addMessage st role content).2.currentMessageId =
      some st.idToMessage.length := rfl

theorem addMessage_length (st : AgentState) (role content : String) :
    (addMessage st role content).2.idToMessage.length =
      st.idToMessage.length + 1 := by
  rw [addMessage_msgs]
  cases hcur : st.currentMessageId <;>
    simp [hcur, updateAt_length]

theorem setMessageContent_ok {st : AgentState} {mid : Int} {c : String}
    {st1 : AgentState} (h : setMessageContent st mid c = .ok st1) :
    st1 = { st with
            idToMessage := updateAt st.idToMessage mid.toNat
              (fun m => { m with content := c }) } := by
  unfold setMessageContent at h
  split at h
  · cases h
  · cases h
    rfl

theorem addMessage_get?_lt {st : AgentState} (role content : String) {i : Nat}
    {m : Msg} (h : st.idToMessage.get? i = some m) :
    ∃ m', (addMessage st role content).2.idToMessage.get? i = some m' ∧
      m'.uniqueId = m.uniqueId ∧ m'.role = m.role ∧ m'.content = m.content ∧
      m'.parent = m.parent ∧
      ∃ tail, m'.children = m.children ++ tail := by
  have hi : i < st.idToMessage.length := by
    by_contra hc
    rw [List.get?_len_le (by omega)] at h
    cases h
  rw [addMessage_msgs]
  cases hcur : st.currentMessageId with
  | none =>
    refine ⟨m, ?_, rfl, rfl, rfl, rfl, [], by simp⟩
    simp only [hcur]
    rw [List.get?_append hi]
    exact h
  | some p =>
    simp only [hcur]
    by_cases hip : i = p
    · subst hip
      refine ⟨{ m with children := m.children ++ [st.idToMessage.length] },
        ?_, rfl, rfl, rfl, rfl, [st.idToMessage.length], rfl⟩
      rw [List.get?_append (by rw [updateAt_length]; exact hi)]
      rw [updateAt_get?_self _ hi, h]
      rfl
    · refine ⟨m, ?_, rfl, rfl, rfl, rfl, [], by simp⟩
      rw [List.get?_append (by rw [updateAt_length]; exact hi)]
      rw [updateAt_get?_other _ hip]
      exact h

theorem backtrack_msgs (st : AgentState) (instr : String) (atId : Int) :
    (addInstructionsAndBacktrack st instr atId).2.idToMessage = st.idToMessage ∨
    (addInstructionsAndBacktrack st instr atId).2.idToMessage =
      updateAt st.idToMessage st.instructionsMessageId
        (fun m => { m with content := instr }) := by
  unfold addInstructionsAndBacktrack
  cases hset : setMessageContent st (st.instructionsMessageId : Int) instr with
  | error e =>
    left
    rfl
  | ok st1 =>
    have h1 := setMessageContent_ok hset
    subst h1
    dsimp only
    right
    split <;> simp [Int.toNat_natCast]

theorem backtrack_get? {st : AgentState} (instr : String) (atId : Int) {i : Nat}
    {m : Msg} (h : st.idToMessage.get? i = some m) :
    ∃ m', (addInstructionsAndBacktrack st instr atId).2.idToMessage.get? i = some m' ∧
      m'.uniqueId = m.uniqueId ∧ m'.role = m.role ∧ m'.parent = m.parent ∧
      m'.children = m.children := by
  have hi : i < st.idToMessage.length := by
    by_contra hc
    rw [List.get?_len_le (by omega)] at h
    cases h
  rcases backtrack_msgs st instr atId with hmsgs | hmsgs <;> rw [hmsgs]
  · exact ⟨m, h, rfl, rfl, rfl, rfl⟩
  · by_cases hip : i = st.instructionsMessageId
    · subst hip
      refine ⟨{ m with content := instr }, ?_, rfl, rfl, rfl, rfl⟩
      rw [updateAt_get?_self _ hi, h]
      rfl
    · refine ⟨m, ?_, rfl, rfl, rfl, rfl⟩
      rw [updateAt_get?_other _ hip]
      exact h

theorem backtrack_length (st : AgentState) (instr : String) (atId : Int) :
    (addInstructionsAndBacktrack st instr atId).2.idToMessage.length =
      st.idToMessage.length := by
  rcases backtrack_msgs st instr atId with hmsgs | hmsgs <;>
    simp [hmsgs, updateAt_length]

theorem backtrack_current (st : AgentState) (instr : String) (atId : Int) :
    (addInstructionsAndBacktrack st instr atId).2.currentMessageId =
        st.currentMessageId ∨
    (0 ≤ atId ∧ atId < (st.idToMessage.length : Int) ∧
      (addInstructionsAndBacktrack st instr atId).2.currentMessageId =
        some atId.toNat) := by
  unfold addInstructionsAndBacktrack
  cases hset : setMessageContent st (st.instructionsMessageId : Int) instr with
  | error e =>
    left
    rfl
  | ok st1 =>
    have h1 := setMessageContent_ok hset
    subst h1
    dsimp only
    split
    · left
      rfl
    · right
      rename_i hcond
      rw [updateAt_length] at hcond
      exact ⟨by omega, by omega, rfl⟩

theorem WF_addMessage (st : AgentState) (role content : String)
    (h : TreeWF st.idToMessage) (hp : PtrWF st.idToMessage st.currentMessageId) :
    TreeWF (addMessage st role content).2.idToMessage ∧
      PtrWF (addMessage st role content).2.idToMessage
        (addMessage st role content).2.currentMessageId := by
  obtain ⟨ha, hb, hc⟩ := h
  obtain ⟨hp1, hp2⟩ := hp
  have hlen := addMessage_length st role content
  have hnode : ∀ i m', (addMessage st role content).2.idToMessage.get? i = some m' →
      (i < st.idToMessage.length ∧
        ∃ m, st.idToMessage.get? i = some m ∧ m'.uniqueId = m.uniqueId ∧
          m'.parent = m.parent) ∨
      (i = st.idToMessage.length ∧ m'.uniqueId = st.idToMessage.length ∧
        m'.parent = st.currentMessageId) := by
    intro i m' hm'
    by_cases hi : i < st.idToMessage.length
    · left
      refine ⟨hi, ?_⟩
      cases hg : st.idToMessage.get? i with
      | none =>
        rw [List.get?_eq_none] at hg
        omega
      | some m =>
        obtain ⟨m'', hm'', hu, hr, hcnt, hpar, _⟩ := addMessage_get?_lt role content hg
        rw [hm'] at hm''
        cases hm''
        exact ⟨m, rfl, hu, hpar⟩
    · by_cases hieq : i = st.idToMessage.length
      · subst hieq
        right
        have hnew : (addMessage st role content).2.idToMessage.get?
            st.idToMessage.length =
            some { role := role, content := content, timestamp := 0,
                   uniqueId := st.idToMessage.length,
                   parent := st.currentMessageId, children := [] } := by
          rw [addMessage_msgs]
          generalize hL : (match st.currentMessageId with
              | some p => updateAt st.idToMessage p
                  (fun m => { m with children := m.children ++ [st.idToMessage.length] })
              | none => st.idToMessage) = L
          have hlin : L.length = st.idToMessage.length := by
            rw [← hL]
            cases st.currentMessageId <;> simp [updateAt_length]
          rw [← hlin, List.get?_concat_length]
        rw [hnew] at hm'
        cases hm'
        exact ⟨rfl, rfl, rfl⟩
      · exfalso
        have : (addMessage st role content).2.idToMessage.get? i = none := by
          rw [List.get?_eq_none]
          omega
        rw [this] at hm'
        cases hm'
  refine ⟨⟨?_, ?_, ?_⟩, ?_, ?_⟩
  · intro i m' hm'
    rcases hnode i m' hm' with ⟨hi, m, hg, hu, _⟩ | ⟨hi, hu, _⟩
    · rw [hu]
      exact ha i m hg
    · rw [hu, hi]
  · intro i m' hm'
    rcases hnode i m' hm' with ⟨hi, m, hg, _, hpar⟩ | ⟨hi, _, hpar⟩
    · rw [hpar]
      constructor
      · intro hnone
        exact (hb i m hg).mp hnone
      · intro hzero
        exact (hb i m hg).mpr hzero
    · rw [hpar]
      subst hi
      cases hlist : st.idToMessage with
      | nil =>
        have hcur : st.currentMessageId = none := by
          cases hcur : st.currentMessageId with
          | none => rfl
          | some c =>
            have := hp1 c hcur
            rw [hlist] at this
            simp at this
        simp [hcur, hlist]
      | cons a as =>
        have hcur : st.currentMessageId ≠ none := hp2 (by rw [hlist]; simp)
        constructor
        · intro hnone
          exact absurd hnone hcur
        · intro hzero
          simp at hzero
  · intro i m' p hm' hpar
    rcases hnode i m' hm' with ⟨hi, m, hg, _, hpm⟩ | ⟨hi, _, hpm⟩
    · rw [hpm] at hpar
      exact hc i m p hg hpar
    · rw [hpm] at hpar
      subst hi
      exact hp1 p hpar
  · intro c hcc
    rw [addMessage_current] at hcc
    cases hcc
    omega
  · intro _
    rw [addMessage_current]
    simp

theorem WF_backtrack {st : AgentState} (instr : String) (atId : Int)
    (h : TreeWF st.idToMessage) (hp : PtrWF st.idToMessage st.currentMessageId) :
    TreeWF (addInstructionsAndBacktrack st instr atId).2.idToMessage ∧
      PtrWF (addInstructionsAndBacktrack st instr atId).2.idToMessage
        (addInstructionsAndBacktrack st instr atId).2.currentMessageId := by
  obtain ⟨ha, hb, hc⟩ := h
  obtain ⟨hp1, hp2⟩ := hp
  have hlen := backtrack_length st instr atId
  have hnode : ∀ i m', (addInstructionsAndBacktrack st instr atId).2.idToMessage.get? i
        = some m' →
      ∃ m, st.idToMessage.get? i = some m ∧ m'.uniqueId = m.uniqueId ∧
        m'.parent = m.parent := by
    intro i m' hm'
    have hi : i < st.idToMessage.length := by
      by_contra hcon
      have : (addInstructionsAndBacktrack st instr atId).2.idToMessage.get? i = none := by
        rw [List.get?_eq_none]
        omega
      rw [this] at hm'
      cases hm'
    cases hg : st.idToMessage.get? i with
    | none =>
      rw [List.get?_eq_none] at hg
      omega
    | some m =>
      obtain ⟨m'', hm'', hu, _, hpar, _⟩ := backtrack_get? instr atId hg
      rw [hm'] at hm''
      cases hm''
      exact ⟨m, rfl, hu, hpar⟩
  refine ⟨⟨?_, ?_, ?_⟩, ?_, ?_⟩
  · intro i m' hm'
    obtain ⟨m, hg, hu, _⟩ := hnode i m' hm'
    rw [hu]
    exact ha i m hg
  · intro i m' hm'
    obtain ⟨m, hg, _, hpar⟩ := hnode i m' hm'
    rw [hpar]
    exact hb i m hg
  · intro i m' p hm' hpar
    obtain ⟨m, hg, _, hpm⟩ := hnode i m' hm'
    rw [hpm] at hpar
    exact hc i m p hg hpar
  · intro c hcc
    rcases backtrack_current st instr atId with hcur | ⟨h0, h1, hcur⟩ <;>
      rw [hcur] at hcc
    · rw [hlen]
      exact hp1 c hcc
    · cases hcc
      rw [hlen]
      omega
  · intro hne
    rcases backtrack_current st instr atId with hcur | ⟨h0, h1, hcur⟩ <;> rw [hcur]
    · apply hp2
      intro hnil
      apply hne
      rcases backtrack_msgs st instr atId with hmsgs | hmsgs <;> rw [hmsgs, hnil]
      rfl
    · simp

theorem WF_applyOp {st : AgentState} (op : AgentOp)
    (h : TreeWF st.idToMessage ∧ PtrWF st.idToMessage st.currentMessageId) :
    TreeWF (applyOp st op).idToMessage ∧
      PtrWF (applyOp st op).idToMessage (applyOp st op).currentMessageId := by
  cases op with
  | create role content => exact WF_addMessage st role content h.1 h.2
  | backtrack instr atId => exact WF_backtrack instr atId h.1 h.2

theorem WF_applyOps {st : AgentState} (ops : List AgentOp)
    (h : TreeWF st.idToMessage ∧ PtrWF st.idToMessage st.currentMessageId) :
    TreeWF (applyOps st ops).idToMessage ∧
      PtrWF (applyOps st ops).idToMessage (applyOps st ops).currentMessageId := by
  induction ops generalizing st with
  | nil => exact h
  | cons op rest ih => exact ih (WF_applyOp op h)

theorem WF_mkAgent (sys : String) :
    TreeWF (mkAgent sys).idToMessage ∧
      PtrWF (mkAgent sys).idToMessage (mkAgent sys).currentMessageId := by
  have h0 : TreeWF ([] : List Msg) ∧ PtrWF ([] : List Msg) none := by
    refine ⟨⟨?_, ?_, ?_⟩, ?_, ?_⟩
    · intro i m hm
      cases hm
    · intro i m hm
      cases hm
    · intro i m p hm
      cases hm
    · intro c hcc
      cases hcc
    · intro hne
      exact absurd rfl hne
  have st0 : AgentState :=
    { idToMessage := [], rootMessageId := none, currentMessageId := none,
      systemMessageId := 0, userMessageId := 1, instructionsMessageId := 2,
      functionMap := [] }
  have h1 := WF_addMessage
    { idToMessage := [], rootMessageId := none, currentMessageId := none,
      systemMessageId := 0, userMessageId := 1, instructionsMessageId := 2,
      functionMap := [] } "system" sys h0.1 h0.2
  have h2 := WF_addMessage (addMessage
    { idToMessage := [], rootMessageId := none, currentMessageId := none,
      systemMessageId := 0, userMessageId := 1, instructionsMessageId := 2,
      functionMap := [] } "system" sys).2 "user" "" h1.1 h1.2
  have h3 := WF_addMessage (addMessage (addMessage
    { idToMessage := [], rootMessageId := none, currentMessageId := none,
      systemMessageId := 0, userMessageId := 1, instructionsMessageId := 2,
      functionMap := [] } "system" sys).2 "user" "").2 "instructor" "" h2.1 h2.2
  exact h3

/-- C8: for every sequence of message-creation and backtrack (pointer-move)
operations, the message tree satisfies: exactly one node (the first created)
has a null parent; every other node has a parent created strictly earlier
(a strictly smaller id); a node id never changes after creation; children
lists only grow; and no node is ever deleted from the store — backtracking
only moves the current pointer. -/
theorem C8_message_tree_invariants :
    (∀ (sys : String) (ops : List AgentOp),
      TreeWF (applyOps (mkAgent sys) ops).idToMessage) ∧
    (∀ (st : AgentState) (op : AgentOp),
      st.idToMessage.length ≤ (applyOp st op).idToMessage.length ∧
      ∀ (i : Nat) (m : Msg), st.idToMessage.get? i = some m →
        ∃ m', (applyOp st op).idToMessage.get? i = some m' ∧
          m'.uniqueId = m.uniqueId ∧ m'.role = m.role ∧ m'.parent = m.parent ∧
          ∃ tail, m'.children = m.children ++ tail) := by
  constructor
  · intro sys ops
    exact (WF_applyOps ops (WF_mkAgent sys)).1
  · intro st op
    cases op with
    | create role content =>
      constructor
      · rw [show applyOp st (AgentOp.create role content)
            = (addMessage st role content).2 from rfl, addMessage_length]
        omega
      · intro i m hm
        obtain ⟨m', hm', hu, hr, _, hpar, tail, hch⟩ :=
          addMessage_get?_lt role content hm
        exact ⟨m', hm', hu, hr, hpar, tail, hch⟩
    | backtrack instr atId =>
      constructor
      · rw [show applyOp st (AgentOp.backtrack instr atId)
            = (addInstructionsAndBacktrack st instr atId).2 from rfl,
          backtrack_length]
      · intro i m hm
        obtain ⟨m', hm', hu, hr, hpar, hch⟩ := backtrack_get? instr atId hm
        exact ⟨m', hm', hu, hr, hpar, [], by rw [hch]; simp⟩

/-- Closed instantiation of `C8_message_tree_invariants`: the tree invariant
after a create and a backtrack on the fresh agent, checked at node 0. -/
theorem C8_message_tree_invariants_witness :
    ∀ m, (applyOps (mkAgent "p")
        [AgentOp.create "assistant" "r", AgentOp.backtrack "i" 0]).idToMessage.get? 0
        = some m → (m.parent = none ↔ 0 = 0) :=
  fun m hm =>
    (C8_message_tree_invariants.1 "p"
      [AgentOp.create "assistant" "r", AgentOp.backtrack "i" 0]).2.1 0 m hm

/-- Closed instantiation of `C9_backtrack_failure_not_atomic` on the freshly
initialised agent with the out-of-range id 99. -/
theorem C9_backtrack_failure_not_atomic_witness :
    (addInstructionsAndBacktrack (mkAgent "p") "new instructions" 99).1 =
        .error "Invalid at_message_id: 99" ∧
    ((addInstructionsAndBacktrack (mkAgent "p") "new instructions" 99).2.idToMessage.get?
        (mkAgent "p").instructionsMessageId).map Msg.content =
      some "new instructions" ∧
    (addInstructionsAndBacktrack (mkAgent "p") "new instructions" 99).2.currentMessageId =
      (mkAgent "p").currentMessageId := by
  have h := C9_backtrack_failure_not_atomic (mkAgent "p") "new instructions" 99
    (by decide) (by right; decide)
  exact ⟨h.1, h.2.1, h.2.2.1⟩

end Agent

namespace Agent

/-- C7: `run` clamps the caller-requested step budget to the hard cap of
100, and if no finish call ends the run within the clamped number of steps it
returns exactly the string
`"Agent reached maximum steps (<N>) without completing the task."` with `<N>`
the clamped budget, rather than raising an exception (the embedding is a
total function returning this string). -/
theorem C7_budget_clamped_and_exhaustion_message :
    (∀ (llm : Nat → String) (st : AgentState) (task : String) (maxSteps : Nat),
      run llm st task maxSteps = run llm st task (min maxSteps 100)) ∧
    (∀ (llm : Nat → String) (st st1 : AgentState) (task : String) (maxSteps : Nat),
      setMessageContent st (st.userMessageId : Int) task = .ok st1 →
      (runLoop llm st1 0 (min maxSteps 100)).1 = .exhausted →
      (run llm st task maxSteps).1 =
        "Agent reached maximum steps (" ++ toString (min maxSteps 100) ++
          ") without completing the task.") := by
  constructor
  · intro llm st task maxSteps
    have hmin : min (min maxSteps 100) 100 = min maxSteps 100 := by omega
    unfold run
    rw [hmin]
  · intro llm st st1 task maxSteps hset hrun
    unfold run
    rw [hset]
    dsimp only
    rcases hrl : runLoop llm st1 0 (min maxSteps 100) with ⟨out, st2⟩
    rw [hrl] at hrun
    dsimp only at hrun
    subst hrun
    rfl

/-- Closed instantiation of `C7_budget_clamped_and_exhaustion_message`:
three steps of unparsable model output exhaust a budget of 3 and yield the
fixed message. -/
theorem C7_budget_clamped_and_exhaustion_message_witness :
    (run (fun _ => "no call") (mkAgent "p") "t" 3).1 =
      "Agent reached maximum steps (3) without completing the task." := by
  have h := C7_budget_clamped_and_exhaustion_message.2 (fun _ => "no call")
    (mkAgent "p") _ "t" 3 rfl (by rfl)
  exact h

/-- C1 (code evidence): the run loop terminates through the first successful
`finish` call and returns its payload immediately — it never consults the
artifact-presence check.  With a model stream whose first response is a
well-formed `finish` call and an empty `git diff --cached` output, `run`
returns the finish payload and stops (no tool-role error node is appended:
the final transcript holds exactly the three initial nodes plus the
`assistant` node), while `generate_patch` on the same empty diff reports
that no changes exist. -/
theorem C1_finish_returns_without_artifact_check :
    (run (fun _ => "Done.\n----BEGIN_FUNCTION_CALL----\nfinish\n----ARG----\nresult\ndone\n----END_FUNCTION_CALL----")
        (mkAgent "p") "fix bug" 50).1 = "done" ∧
    (run (fun _ => "Done.\n----BEGIN_FUNCTION_CALL----\nfinish\n----ARG----\nresult\ndone\n----END_FUNCTION_CALL----")
        (mkAgent "p") "fix bug" 50).2.idToMessage.length = 4 ∧
    ((run (fun _ => "Done.\n----BEGIN_FUNCTION_CALL----\nfinish\n----ARG----\nresult\ndone\n----END_FUNCTION_CALL----")
        (mkAgent "p") "fix bug" 50).2.idToMessage.get? 3).map Msg.role =
      some "assistant" ∧
    Envs.generatePatch "" "done" = "done\n\nNo changes detected to generate a patch." :=
  ⟨rfl, rfl, rfl, rfl⟩

/-- C2 (counterexample): invoking a tool with one extra unexpected argument
name does not succeed: the keyword binding of `func(**arguments)` raises a
`TypeError`, which the loop records as a tool-role error node
(`"Error calling ..."`) before continuing — nothing is dropped and no
`MissingRequiredArguments` error exists. -/
theorem C2_extra_argument_rejected_not_dropped :
    callTool finishTool [("result", "x"), ("extra", "y")]
      = .typeError "got an unexpected keyword argument extra" ∧
    (run (fun _ => "t\n----BEGIN_FUNCTION_CALL----\nfinish\n----ARG----\nresult\nx\n----ARG----\nextra\ny\n----END_FUNCTION_CALL----")
        (mkAgent "p") "task" 1).1 =
      "Agent reached maximum steps (1) without completing the task." ∧
    ((run (fun _ => "t\n----BEGIN_FUNCTION_CALL----\nfinish\n----ARG----\nresult\nx\n----ARG----\nextra\ny\n----END_FUNCTION_CALL----")
        (mkAgent "p") "task" 1).2.idToMessage.get? 4).map Msg.content =
      some "Error calling finish: got an unexpected keyword argument extra" :=
  ⟨rfl, rfl, rfl⟩

/-- C2 (amended): the dispatch passes the model-supplied arguments through to
the callable unfiltered; an argument whose name is not a declared parameter
makes the call fail with a `TypeError` naming it, and a required parameter
(no default) that received no argument makes the call fail with a
`TypeError` naming exactly the declared parameters that are required and
unsupplied — in both cases the engine records a tool-role error node and
continues, and no `MissingRequiredArguments` error exists. -/
theorem C2_kwargs_passed_through_type_error :
    (∀ (t : Tool) (args : List (String × String)),
      (∃ kv ∈ args, ∀ p ∈ t.params, p.name ≠ kv.1) →
      ∃ k v, (k, v) ∈ args ∧ (∀ p ∈ t.params, p.name ≠ k) ∧
        callTool t args = .typeError ("got an unexpected keyword argument " ++ k)) ∧
    (∀ (t : Tool) (args : List (String × String)),
      (∀ kv ∈ args, ∃ p ∈ t.params, p.name = kv.1) →
      (∃ p ∈ t.params, p.hasDefault = false ∧ ∀ kv ∈ args, kv.1 ≠ p.name) →
      callTool t args = .typeError ("missing required arguments: " ++
        String.intercalate ", " ((t.params.filter
          (fun p => !p.hasDefault && !(args.any (fun kv => kv.1 == p.name)))).map
          Param.name)) ∧
      ((t.params.filter (fun p => !p.hasDefault &&
          !(args.any (fun kv => kv.1 == p.name)))).map Param.name) ≠ []) := by
  constructor
  · rintro t args ⟨kv0, hmem, hundecl⟩
    cases hfind : args.find? (fun kv => !(t.params.any (fun p => p.name == kv.1))) with
    | none =>
      exfalso
      have h := List.find?_eq_none.mp hfind kv0 hmem
      simp only [Bool.not_eq_true', Bool.not_eq_false, List.any_eq_true,
        beq_iff_eq] at h
      obtain ⟨p, hpmem, hpeq⟩ := h
      exact hundecl p hpmem hpeq
    | some kv =>
      have hpred := List.find?_some hfind
      have hmemkv := List.mem_of_find?_eq_some hfind
      simp only [Bool.not_eq_true', List.any_eq_false, beq_iff_eq] at hpred
      refine ⟨kv.1, kv.2, by simpa using hmemkv, hpred, ?_⟩
      unfold callTool
      rw [hfind]
  · rintro t args hall ⟨p0, hp0mem, hp0req, hp0miss⟩
    have hfind : args.find?
        (fun kv => !(t.params.any (fun p => p.name == kv.1))) = none := by
      rw [List.find?_eq_none]
      intro kv hkv
      obtain ⟨p, hpmem, hpeq⟩ := hall kv hkv
      simp only [Bool.not_eq_true', Bool.not_eq_false, List.any_eq_true,
        beq_iff_eq]
      exact ⟨p, hpmem, hpeq⟩
    have hp0infil : p0 ∈ t.params.filter
        (fun p => !p.hasDefault && !(args.any (fun kv => kv.1 == p.name))) := by
      rw [List.mem_filter]
      refine ⟨hp0mem, ?_⟩
      simp only [Bool.and_eq_true, Bool.not_eq_true', List.any_eq_false,
        beq_iff_eq]
      exact ⟨hp0req, fun kv hkv => hp0miss kv hkv⟩
    unfold callTool
    rw [hfind]
    dsimp only
    cases hfil : (t.params.filter (fun p => !p.hasDefault &&
        !(args.any (fun kv => kv.1 == p.name)))).map Param.name with
    | nil =>
      exfalso
      have : p0.name ∈ (t.params.filter (fun p => !p.hasDefault &&
          !(args.any (fun kv => kv.1 == p.name)))).map Param.name :=
        List.mem_map_of_mem Param.name hp0infil
      rw [hfil] at this
      cases this
    | cons a rest =>
      exact ⟨rfl, by simp⟩

/-- Closed instantiation of `C2_kwargs_passed_through_type_error` on the
`finish` tool: an extra keyword is rejected, and a call with no arguments
fails naming the missing required parameter `result`. -/
theorem C2_kwargs_passed_through_type_error_witness :
    (∃ k v, (k, v) ∈ [("result", "x"), ("extra", "y")] ∧
      (∀ p ∈ finishTool.params, p.name ≠ k) ∧
      callTool finishTool [("result", "x"), ("extra", "y")] =
        .typeError ("got an unexpected keyword argument " ++ k)) ∧
    callTool finishTool ([] : List (String × String)) =
      .typeError "missing required arguments: result" := by
  constructor
  · exact C2_kwargs_passed_through_type_error.1 finishTool
      [("result", "x"), ("extra", "y")] (by decide)
  · have h := C2_kwargs_passed_through_type_error.2 finishTool []
      (by intro kv hkv; cases hkv) (by decide)
    exact h.1.trans rfl

end Agent

namespace PyStr

theorem noOccurFrom_spec {t p : Str} {lo : Nat} (hp : p ≠ [])
    (h : noOccurFrom t p lo = true) : ∀ j, lo ≤ j → occursAt t p j = false := by
  intro j hj
  by_cases hle : j ≤ t.length
  · have hh := List.all_eq_true.mp h j (List.mem_range.mpr (by omega))
    simp only [Bool.or_eq_true, decide_eq_true_eq, Bool.not_eq_true'] at hh
    rcases hh with hh | hh
    · omega
    · exact hh
  · exact occursAt_false_of_le hp (by omega)

theorem noOccurBelow_spec {t p : Str} {hi : Nat}
    (h : noOccurBelow t p hi = true) : ∀ j, j < hi → occursAt t p j = false := by
  intro j hj
  have hh := List.all_eq_true.mp h j (List.mem_range.mpr hj)
  simpa using hh

theorem rfindSub_eq_some {t p : Str} {e i : Nat} (hp : p ≠ [])
    (hocc : occursAt t p i = true) (hfit : i + p.length ≤ e)
    (hmax : ∀ j, occursAt t p j = true → j + p.length ≤ e → j ≤ i) :
    rfindSub t p e = some i := by
  cases h : rfindSub t p e with
  | none =>
    rw [rfindSub_none_iff hp] at h
    rw [h i hfit] at hocc
    cases hocc
  | some j =>
    obtain ⟨h1, h2, h3⟩ := rfindSub_some h
    have hji : j ≤ i := hmax j h1 h2
    have hij : i ≤ j := h3 i hocc hfit
    rw [Nat.le_antisymm hji hij]

theorem occursAt_zero_append {p rest : Str} : occursAt (p ++ rest) p 0 = true := by
  unfold occursAt
  rw [List.drop_zero]
  exact beginsWith_iff.mpr ⟨rest, rfl⟩

theorem occursAt_append_self {xs p : Str} :
    occursAt (xs ++ p) p xs.length = true := by
  unfold occursAt
  rw [List.drop_left]
  exact beginsWith_iff.mpr ⟨[], by simp⟩

theorem rfind_suffix_pos {xs p : Str} (hp : p ≠ []) :
    rfindSub (xs ++ p) p (xs ++ p).length = some xs.length := by
  have hp1 : 1 ≤ p.length := by
    cases hq : p with
    | nil => exact absurd hq hp
    | cons a as => simp
  apply rfindSub_eq_some hp occursAt_append_self
  · simp
  · intro j hj hfit
    simp only [List.length_append] at hfit
    omega

theorem splitOnSub_append_sep {xs ys sep : Str} (hsep : sep ≠ [])
    (h : ∀ i, i < xs.length → occursAt (xs ++ sep ++ ys) sep i = false) :
    splitOnSub (xs ++ sep ++ ys) sep = xs :: splitOnSub ys sep := by
  induction xs with
  | nil =>
    simp only [List.nil_append]
    rw [splitOnSub_pos hsep occursAt_zero_append]
    rw [List.drop_left]
  | cons c cs ih =>
    have hshift : ∀ i, i < cs.length → occursAt (cs ++ sep ++ ys) sep i = false := by
      intro i hi
      exact h (i + 1) (by simp only [List.length_cons]; omega)
    have h0 : occursAt (c :: (cs ++ sep ++ ys)) sep 0 = false := h 0 (by simp)
    have hocc0 : ¬(sep ≠ [] ∧ occursAt (c :: (cs ++ sep ++ ys)) sep 0 = true) := by
      rintro ⟨-, hcon⟩
      rw [h0] at hcon
      cases hcon
    calc splitOnSub (c :: cs ++ sep ++ ys) sep
        = splitOnSub (c :: (cs ++ sep ++ ys)) sep := by
          simp only [List.cons_append]
      _ = consHead c (splitOnSub (cs ++ sep ++ ys) sep) := splitOnSub_neg rfl hocc0
      _ = consHead c (cs :: splitOnSub ys sep) := by rw [ih hshift]
      _ = (c :: cs) :: splitOnSub ys sep := rfl

theorem lstrip_cons_of_space {c : Char} {s : Str} (h : isSpace c = true) :
    lstrip (c :: s) = lstrip s := by
  unfold lstrip
  rw [List.dropWhile_cons_of_pos h]

theorem lstrip_cons_of_not_space {c : Char} {s : Str} (h : isSpace c = false) :
    lstrip (c :: s) = c :: s := by
  unfold lstrip
  rw [List.dropWhile_cons_of_neg (by simp [h])]

theorem rstrip_eq_rdropWhile (s : Str) : rstrip s = List.rdropWhile isSpace s := rfl

theorem rstrip_concat_of_space {xs : Str} {c : Char} (h : isSpace c = true) :
    rstrip (xs ++ [c]) = rstrip xs := by
  rw [rstrip_eq_rdropWhile, rstrip_eq_rdropWhile]
  exact List.rdropWhile_concat_pos _ _ c h

theorem rstrip_concat_of_not_space {xs : Str} {c : Char} (h : isSpace c = false) :
    rstrip (xs ++ [c]) = xs ++ [c] := by
  rw [rstrip_eq_rdropWhile]
  exact List.rdropWhile_concat_neg _ _ c (by simp [h])

end PyStr

namespace ResponseParser

/-- C5: encoding a call `(name, {a: "v1", b: "v2\nv3"})` with the literal
wire-format markers — the function name on its own line after the begin
marker, each argument as the per-argument marker followed by the argument
name line and then its value — and decoding with `parse` reproduces the
exact function name and argument map, including the embedded newline in the
multi-line value of `b`.  The hypotheses say the name is a plausible
function name: already stripped, non-empty, and not containing stray marker
text (checked by the decidable `noOccurFrom` / `noOccurBelow` scans). -/
theorem C5_encode_decode_round_trip :
    ∀ name : Str,
      strip name = name →
      name ≠ [] →
      noOccurFrom (encodeCall name [("a".toList, "v1".toList), ("b".toList, "v2\nv3".toList)])
        BEGIN_CALL 1 = true →
      noOccurBelow (((name ++ ['\n']) ++ ARG_SEP) ++ "\na\nv1\n----ARG----\nb\nv2\nv3".toList)
        ARG_SEP (name.length + 1) = true →
      parse (encodeCall name [("a".toList, "v1".toList), ("b".toList, "v2\nv3".toList)]) =
        .ok { thought := [], name := name,
              args := [("a".toList, "v1".toList), ("b".toList, "v2\nv3".toList)] } := by
  intro name hstrip hne hB hS
  obtain ⟨hl, hr⟩ := strip_eq_self_parts hstrip
  obtain ⟨c, cs, hname⟩ : ∃ c cs, name = c :: cs := by
    cases hx : name with
    | nil => exact absurd hx hne
    | cons c cs => exact ⟨c, cs, rfl⟩
  have hlc : lstrip (c :: cs) = c :: cs := by rw [← hname]; exact hl
  have hchead : isSpace c = false := head_not_space_of_lstrip_eq_self hlc
  have hsplit : encodeCall name [("a".toList, "v1".toList), ("b".toList, "v2\nv3".toList)]
      = ((BEGIN_CALL ++ ('\n' :: name)) ++
          ('\n' :: "----ARG----\na\nv1\n----ARG----\nb\nv2\nv3\n".toList)) ++ END_CALL := rfl
  have hend : rfindSub
      (encodeCall name [("a".toList, "v1".toList), ("b".toList, "v2\nv3".toList)]) END_CALL
      (encodeCall name [("a".toList, "v1".toList), ("b".toList, "v2\nv3".toList)]).length
      = some ((BEGIN_CALL ++ ('\n' :: name)) ++
          ('\n' :: "----ARG----\na\nv1\n----ARG----\nb\nv2\nv3\n".toList)).length := by
    rw [hsplit]
    exact rfind_suffix_pos END_CALL_ne_nil
  have hsplit2 : encodeCall name [("a".toList, "v1".toList), ("b".toList, "v2\nv3".toList)]
      = BEGIN_CALL ++ (('\n' :: name) ++
          (('\n' :: "----ARG----\na\nv1\n----ARG----\nb\nv2\nv3\n".toList) ++ END_CALL)) := by
    rw [hsplit]
    simp [List.append_assoc]
  have hE0 : ((BEGIN_CALL ++ ('\n' :: name)) ++
      ('\n' :: "----ARG----\na\nv1\n----ARG----\nb\nv2\nv3\n".toList)).length
      = name.length + 66 := by
    simp only [List.length_append, List.length_cons]
    have h27 : BEGIN_CALL.length = 27 := rfl
    have h37 : ("----ARG----\na\nv1\n----ARG----\nb\nv2\nv3\n".toList : Str).length = 37 := rfl
    omega
  have hbegin : rfindSub
      (encodeCall name [("a".toList, "v1".toList), ("b".toList, "v2\nv3".toList)]) BEGIN_CALL
      ((BEGIN_CALL ++ ('\n' :: name)) ++
        ('\n' :: "----ARG----\na\nv1\n----ARG----\nb\nv2\nv3\n".toList)).length
      = some 0 := by
    apply rfindSub_eq_some BEGIN_CALL_ne_nil
    · rw [hsplit2]
      exact occursAt_zero_append
    · have h27 : BEGIN_CALL.length = 27 := rfl
      rw [hE0, h27]
      omega
    · intro j hocc hfit
      by_contra hc0
      have hj1 : 1 ≤ j := by omega
      have := noOccurFrom_spec BEGIN_CALL_ne_nil hB j hj1
      rw [this] at hocc
      cases hocc
  have hslice : ((encodeCall name [("a".toList, "v1".toList), ("b".toList, "v2\nv3".toList)]).drop
        (0 + BEGIN_CALL.length)).take
        (((BEGIN_CALL ++ ('\n' :: name)) ++
          ('\n' :: "----ARG----\na\nv1\n----ARG----\nb\nv2\nv3\n".toList)).length
          - (0 + BEGIN_CALL.length))
      = ('\n' :: name) ++ ('\n' :: "----ARG----\na\nv1\n----ARG----\nb\nv2\nv3\n".toList) := by
    rw [hsplit2, Nat.zero_add, List.drop_left' rfl, hE0]
    have h27 : BEGIN_CALL.length = 27 := rfl
    rw [h27]
    have hlen : (('\n' :: name) ++
        ('\n' :: "----ARG----\na\nv1\n----ARG----\nb\nv2\nv3\n".toList)).length
        = name.length + 66 - 27 := by
      simp only [List.length_append, List.length_cons]
      have h37 : ("----ARG----\na\nv1\n----ARG----\nb\nv2\nv3\n".toList : Str).length = 37 := rfl
      omega
    rw [show (('\n' :: name) ++
        (('\n' :: "----ARG----\na\nv1\n----ARG----\nb\nv2\nv3\n".toList) ++ END_CALL))
        = (('\n' :: name) ++
          ('\n' :: "----ARG----\na\nv1\n----ARG----\nb\nv2\nv3\n".toList)) ++ END_CALL by
      simp [List.append_assoc]]
    rw [List.take_left' hlen]
  have hstripcc : strip (('\n' :: name) ++
      ('\n' :: "----ARG----\na\nv1\n----ARG----\nb\nv2\nv3\n".toList))
      = name ++ ('\n' :: "----ARG----\na\nv1\n----ARG----\nb\nv2\nv3".toList) := by
    unfold strip
    have hstep1 : lstrip (('\n' :: name) ++
        ('\n' :: "----ARG----\na\nv1\n----ARG----\nb\nv2\nv3\n".toList))
        = name ++ ('\n' :: "----ARG----\na\nv1\n----ARG----\nb\nv2\nv3\n".toList) := by
      rw [show (('\n' :: name) ++
          ('\n' :: "----ARG----\na\nv1\n----ARG----\nb\nv2\nv3\n".toList))
          = '\n' :: (name ++ ('\n' :: "----ARG----\na\nv1\n----ARG----\nb\nv2\nv3\n".toList))
          from rfl]
      rw [lstrip_cons_of_space (show isSpace '\n' = true from rfl)]
      rw [hname]
      rw [show ((c :: cs) ++ ('\n' :: "----ARG----\na\nv1\n----ARG----\nb\nv2\nv3\n".toList))
          = c :: (cs ++ ('\n' :: "----ARG----\na\nv1\n----ARG----\nb\nv2\nv3\n".toList))
          from rfl]
      rw [lstrip_cons_of_not_space hchead]
    rw [hstep1]
    rw [show (name ++ ('\n' :: "----ARG----\na\nv1\n----ARG----\nb\nv2\nv3\n".toList))
        = (name ++ ('\n' :: "----ARG----\na\nv1\n----ARG----\nb\nv2\nv3".toList)) ++ ['\n'] by
      simp [List.append_assoc]]
    rw [rstrip_concat_of_space (show isSpace '\n' = true from rfl)]
    rw [show (name ++ ('\n' :: "----ARG----\na\nv1\n----ARG----\nb\nv2\nv3".toList))
        = (name ++ ('\n' :: "----ARG----\na\nv1\n----ARG----\nb\nv2\nv".toList)) ++ ['3'] by
      simp [List.append_assoc]]
    rw [rstrip_concat_of_not_space (show isSpace '3' = false from rfl)]
  have hparts : splitOnSub (name ++ ('\n' :: "----ARG----\na\nv1\n----ARG----\nb\nv2\nv3".toList))
      ARG_SEP = (name ++ ['\n']) :: ["\na\nv1\n".toList, "\nb\nv2\nv3".toList] := by
    have hform : name ++ ('\n' :: "----ARG----\na\nv1\n----ARG----\nb\nv2\nv3".toList)
        = ((name ++ ['\n']) ++ ARG_SEP) ++ "\na\nv1\n----ARG----\nb\nv2\nv3".toList := by
      simp [List.append_assoc]
      decide
    rw [hform]
    rw [splitOnSub_append_sep ARG_SEP_ne_nil ?hno]
    case hno =>
      intro i hi
      apply noOccurBelow_spec hS
      simpa using hi
    rw [show splitOnSub ("\na\nv1\n----ARG----\nb\nv2\nv3".toList) ARG_SEP
        = ["\na\nv1\n".toList, "\nb\nv2\nv3".toList] from rfl]
  have hfn : strip (name ++ ['\n']) = name := by
    unfold strip
    have hstep1 : lstrip (name ++ ['\n']) = name ++ ['\n'] := by
      rw [hname]
      rw [show ((c :: cs) ++ ['\n']) = c :: (cs ++ ['\n']) from rfl]
      rw [lstrip_cons_of_not_space hchead]
    rw [hstep1, rstrip_concat_of_space (show isSpace '\n' = true from rfl)]
    exact hr
  have hargs : parseArgsFrom 1 [] ["\na\nv1\n".toList, "\nb\nv2\nv3".toList]
      = .ok [("a".toList, "v1".toList), ("b".toList, "v2\nv3".toList)] := rfl
  simp only [parse, hend, hbegin, hslice, hstripcc, hparts, hfn, hargs]
  rw [if_neg hne]
  rfl

/-- Closed instantiation of `C5_encode_decode_round_trip` at the function
name `run_tests`. -/
theorem C5_encode_decode_round_trip_witness :
    parse (encodeCall ("run_tests".toList)
        [("a".toList, "v1".toList), ("b".toList, "v2\nv3".toList)]) =
      .ok { thought := [], name := "run_tests".toList,
            args := [("a".toList, "v1".toList), ("b".toList, "v2\nv3".toList)] } := by
  apply C5_encode_decode_round_trip ("run_tests".toList) (by decide) (by decide)
    (by decide) (by decide)

end ResponseParser
